import Mathlib

/-!
# RealPropertyBlockChain: the ledger core of `blockchain.go`

A shallow embedding of the Go package `blockchain` (`src/blockchain.go`) and of the
library functions it calls (`crypto/sha256`, `encoding/hex`, `encoding/json`,
`fmt.Sprintf`), followed by theorems about admission, sealing and validation.

Conventions of the embedding.

* A Go `string` is kept as a Lean `String`; wherever the program looks at bytes
  (slicing `b.Hash[:difficulty]`, hashing) the UTF-8 bytes `goBytes s` are used.
* `int` and `int64` values are `Int`; `Index + 1` and `Nonce++` wrap at 64 bits.
* `time.Now().Unix()` is an explicit argument of the function that reads the clock.
* `map[string]Property` is an association list with at most one entry per key once
  written through `mapStore`.
* The unbounded loop of `MineBlock` takes a fuel argument; an evaluation ends in
  `Run.ok`, in `Run.panic` (a Go run-time panic) or in `Run.outOfFuel`.
-/

namespace Sha256

/-- Round constants of SHA-256 (FIPS 180-4, section 4.2.2). -/
def K : List Nat := [
  0x428a2f98, 0x71374491, 0xb5c0fbcf, 0xe9b5dba5, 0x3956c25b, 0x59f111f1, 0x923f82a4, 0xab1c5ed5,
  0xd807aa98, 0x12835b01, 0x243185be, 0x550c7dc3, 0x72be5d74, 0x80deb1fe, 0x9bdc06a7, 0xc19bf174,
  0xe49b69c1, 0xefbe4786, 0x0fc19dc6, 0x240ca1cc, 0x2de92c6f, 0x4a7484aa, 0x5cb0a9dc, 0x76f988da,
  0x983e5152, 0xa831c66d, 0xb00327c8, 0xbf597fc7, 0xc6e00bf3, 0xd5a79147, 0x06ca6351, 0x14292967,
  0x27b70a85, 0x2e1b2138, 0x4d2c6dfc, 0x53380d13, 0x650a7354, 0x766a0abb, 0x81c2c92e, 0x92722c85,
  0xa2bfe8a1, 0xa81a664b, 0xc24b8b70, 0xc76c51a3, 0xd192e819, 0xd6990624, 0xf40e3585, 0x106aa070,
  0x19a4c116, 0x1e376c08, 0x2748774c, 0x34b0bcb5, 0x391c0cb3, 0x4ed8aa4a, 0x5b9cca4f, 0x682e6ff3,
  0x748f82ee, 0x78a5636f, 0x84c87814, 0x8cc70208, 0x90befffa, 0xa4506ceb, 0xbef9a3f7, 0xc67178f2]

/-- Working variables of the compression function, each a 32-bit word. -/
structure State where
  a : Nat
  b : Nat
  c : Nat
  d : Nat
  e : Nat
  f : Nat
  g : Nat
  h : Nat
  deriving DecidableEq, Repr

/-- Initial hash value of SHA-256. -/
def init : State :=
  ⟨0x6a09e667, 0xbb67ae85, 0x3c6ef372, 0xa54ff53a, 0x510e527f, 0x9b05688c, 0x1f83d9ab, 0x5be0cd19⟩

/-- Addition modulo 2^32. -/
def add32 (x y : Nat) : Nat := (x + y) % 4294967296

/-- Rotation of a 32-bit word to the right by `n` bits. -/
def rotr (x n : Nat) : Nat := (x >>> n) ||| ((x <<< (32 - n)) % 4294967296)

/-- Choice function `Ch`. -/
def ch (x y z : Nat) : Nat := (x &&& y) ^^^ ((4294967295 - x) &&& z)

/-- Majority function `Maj`. -/
def maj (x y z : Nat) : Nat := (x &&& y) ^^^ (x &&& z) ^^^ (y &&& z)

/-- Upper-case sigma 0. -/
def bsig0 (x : Nat) : Nat := rotr x 2 ^^^ rotr x 13 ^^^ rotr x 22

/-- Upper-case sigma 1. -/
def bsig1 (x : Nat) : Nat := rotr x 6 ^^^ rotr x 11 ^^^ rotr x 25

/-- Lower-case sigma 0. -/
def ssig0 (x : Nat) : Nat := rotr x 7 ^^^ rotr x 18 ^^^ (x >>> 3)

/-- Lower-case sigma 1. -/
def ssig1 (x : Nat) : Nat := rotr x 17 ^^^ rotr x 19 ^^^ (x >>> 10)

/-- The first `n` big-endian 32-bit words of a byte list. -/
def words : Nat → List Nat → List Nat
  | 0, _ => []
  | n + 1, bs =>
    (bs.getD 0 0 * 16777216 + bs.getD 1 0 * 65536 + bs.getD 2 0 * 256 + bs.getD 3 0)
      :: words n (bs.drop 4)

/-- Message schedule: `n` further words appended to the schedule `w`. -/
def extend : Nat → List Nat → List Nat
  | 0, w => w
  | n + 1, w =>
    let t := w.length
    extend n (w ++ [add32 (add32 (ssig1 (w.getD (t - 2) 0)) (w.getD (t - 7) 0))
      (add32 (ssig0 (w.getD (t - 15) 0)) (w.getD (t - 16) 0))])

/-- One of the 64 rounds, on a round constant and a schedule word. -/
def round (s : State) (kw : Nat × Nat) : State :=
  let t1 := add32 (add32 (add32 s.h (bsig1 s.e)) (add32 (ch s.e s.f s.g) kw.1)) kw.2
  let t2 := add32 (bsig0 s.a) (maj s.a s.b s.c)
  ⟨add32 t1 t2, s.a, s.b, s.c, add32 s.d t1, s.e, s.f, s.g⟩

/-- Compression of one 64-byte block into the running hash value. -/
def compress (s : State) (block : List Nat) : State :=
  let r := (K.zip (extend 48 (words 16 block))).foldl round s
  ⟨add32 s.a r.a, add32 s.b r.b, add32 s.c r.c, add32 s.d r.d,
   add32 s.e r.e, add32 s.f r.f, add32 s.g r.g, add32 s.h r.h⟩

/-- Big-endian bytes of a 64-bit length. -/
def be64 (n : Nat) : List Nat :=
  [n / 72057594037927936 % 256, n / 281474976710656 % 256, n / 1099511627776 % 256,
   n / 4294967296 % 256, n / 16777216 % 256, n / 65536 % 256, n / 256 % 256, n % 256]

/-- Padding: a one bit, zero bits, and the bit length, up to a multiple of 64 bytes. -/
def pad (msg : List Nat) : List Nat :=
  msg ++ 128 :: List.replicate ((119 - msg.length % 64) % 64) 0 ++ be64 (8 * msg.length)

/-- The first `n` blocks of 64 bytes. -/
def blocks : Nat → List Nat → List (List Nat)
  | 0, _ => []
  | n + 1, bs => bs.take 64 :: blocks n (bs.drop 64)

/-- Big-endian bytes of a 32-bit word. -/
def be32 (w : Nat) : List Nat := [w / 16777216 % 256, w / 65536 % 256, w / 256 % 256, w % 256]

/-- The 32 digest bytes of a hash value. -/
def digest (s : State) : List Nat :=
  be32 s.a ++ be32 s.b ++ be32 s.c ++ be32 s.d ++ be32 s.e ++ be32 s.f ++ be32 s.g ++ be32 s.h

/-- Go `sha256.Sum256`: the SHA-256 digest (32 bytes) of a byte sequence. -/
def Sum256 (msg : List Nat) : List Nat :=
  digest ((blocks ((pad msg).length / 64) (pad msg)).foldl compress init)

end Sha256

/-- UTF-8 encoding of one character, as bytes. -/
def utf8 (c : Char) : List Nat :=
  let v := c.toNat
  if v < 128 then [v]
  else if v < 2048 then [192 + v / 64, 128 + v % 64]
  else if v < 65536 then [224 + v / 4096, 128 + v / 64 % 64, 128 + v % 64]
  else [240 + v / 262144, 128 + v / 4096 % 64, 128 + v / 64 % 64, 128 + v % 64]

/-- The bytes of a Go string (Go strings are byte sequences; source text is UTF-8). -/
def goBytes (s : String) : List Nat := s.data.flatMap utf8

/-- Go slice expression `s[:n]` on a string: the first `n` bytes, and a run-time
panic (`none`) when `n` exceeds `len(s)`. -/
def sliceTo (s : String) (n : Nat) : Option (List Nat) :=
  if n ≤ (goBytes s).length then some ((goBytes s).take n) else none

/-- Digit table of `encoding/hex`. -/
def hextable : List Char :=
  ['0', '1', '2', '3', '4', '5', '6', '7', '8', '9', 'a', 'b', 'c', 'd', 'e', 'f']

/-- Go `hex.EncodeToString`: two lower-case hexadecimal digits per byte. -/
def EncodeToString (bs : List Nat) : String :=
  String.mk (bs.flatMap fun b => [hextable.getD (b / 16) '0', hextable.getD (b % 16) '0'])

/-- Go `%d` verb and the JSON encoding of an integer: decimal digits, `-` when negative. -/
def formatInt (x : Int) : String :=
  if x < 0 then "-" ++ Nat.repr x.natAbs else Nat.repr x.toNat

/-- Wrap-around of 64-bit signed arithmetic (`int` on a 64-bit platform, `int64`). -/
def wrap64 (x : Int) : Int := (x + 9223372036854775808) % 18446744073709551616 - 9223372036854775808

/-- Escape of one character inside a JSON string, as `json.Marshal` writes it (HTML
escaping on, the default): quote and backslash get a backslash, the control
characters below 0x20 and `<`, `>`, `&` are written `\u00XX` apart from the short
forms `\b \f \n \r \t`, and U+2028, U+2029 are written as six-character escapes too. -/
def jsonEscape (c : Char) : String :=
  let v := c.toNat
  if v = 34 then "\\\""
  else if v = 92 then "\\\\"
  else if v = 8 then "\\b"
  else if v = 12 then "\\f"
  else if v = 10 then "\\n"
  else if v = 13 then "\\r"
  else if v = 9 then "\\t"
  else if v < 32 ∨ v = 60 ∨ v = 62 ∨ v = 38 then
    "\\u00" ++ String.mk [hextable.getD (v / 16) '0', hextable.getD (v % 16) '0']
  else if v = 8232 then "\\u2028"
  else if v = 8233 then "\\u2029"
  else String.mk [c]

/-- JSON encoding of a Go string. -/
def jsonString (s : String) : String :=
  "\"" ++ String.join (s.data.map jsonEscape) ++ "\""

/-- Outcome of running code that may panic or loop. -/
inductive Run (α : Type) where
  | ok : α → Run α
  | panic : String → Run α
  | outOfFuel : Run α
  deriving DecidableEq, Repr

/-- Property represents a real property asset. -/
structure Property where
  ID : String
  Owner : String
  Description : String
  Location : String
  Value : Int
  deriving DecidableEq, Repr

/-- Transaction represents a transfer or update of a property. -/
structure Transaction where
  From : String
  To : String
  Property : Property
  Timestamp : Int
  deriving DecidableEq, Repr

/-- Block represents a block in the blockchain. -/
structure Block where
  Index : Int
  Timestamp : Int
  Transactions : List Transaction
  PrevHash : String
  Hash : String
  Nonce : Int
  deriving DecidableEq, Repr

/-- Blockchain represents the chain of blocks and property registry. -/
structure Blockchain where
  Chain : List Block
  PendingTx : List Transaction
  Registry : List (String × Property)
  deriving DecidableEq, Repr

/-- Map assignment `m[k] = v`. -/
def mapStore (m : List (String × Property)) (k : String) (v : Property) :
    List (String × Property) :=
  (k, v) :: m.filter fun e => e.1 != k

/-- JSON encoding of a `Property` (fields in declaration order, with their tags). -/
def Property.toJSON (p : Property) : String :=
  "\x7b\"id\":" ++ jsonString p.ID ++ ",\"owner\":" ++ jsonString p.Owner ++
  ",\"description\":" ++ jsonString p.Description ++ ",\"location\":" ++ jsonString p.Location ++
  ",\"value\":" ++ formatInt p.Value ++ "\x7d"

/-- JSON encoding of a `Transaction`. -/
def Transaction.toJSON (tx : Transaction) : String :=
  "\x7b\"from\":" ++ jsonString tx.From ++ ",\"to\":" ++ jsonString tx.To ++
  ",\"property\":" ++ tx.Property.toJSON ++ ",\"timestamp\":" ++ formatInt tx.Timestamp ++ "\x7d"

/-- Go `json.Marshal` on a `[]Transaction` (a slice, written as a JSON array; the
nil slice, which Go writes as `null`, is not distinguished from the empty one). -/
def marshalTransactions (txs : List Transaction) : String :=
  "[" ++ String.intercalate "," (txs.map Transaction.toJSON) ++ "]"

/-- Source `transactionsToString`: converts transactions to a string for hashing. -/
def Block.transactionsToString (b : Block) : String :=
  marshalTransactions b.Transactions

/-- The string `fmt.Sprintf("%d%d%s%s%d", ...)` that `calculateHash` hashes. -/
def Block.hashData (b : Block) : String :=
  formatInt b.Index ++ formatInt b.Timestamp ++ b.PrevHash ++ b.transactionsToString ++
    formatInt b.Nonce

/-- Source `calculateHash`: computes the hash of the block. -/
def Block.calculateHash (b : Block) : String :=
  EncodeToString (Sha256.Sum256 (goBytes b.hashData))

/-- Source `createGenesisBlock`; `t₁` and `t₂` are its two clock readings. -/
def createGenesisBlock (t₁ t₂ : Int) : Block :=
  let genesisTx : Transaction :=
    { From := "genesis", To := "genesis",
      Property := { ID := "genesis_property", Owner := "genesis",
                    Description := "Genesis Property", Location := "N/A", Value := 0 },
      Timestamp := t₁ }
  let block : Block :=
    { Index := 0, Timestamp := t₂, Transactions := [genesisTx], PrevHash := "0", Hash := "",
      Nonce := 0 }
  { block with Hash := block.calculateHash }

/-- Source `NewBlockchain`: a new blockchain with a genesis block. -/
def NewBlockchain (t₁ t₂ : Int) : Blockchain :=
  { Chain := [createGenesisBlock t₁ t₂], PendingTx := [], Registry := [] }

/-- The target string built at the start of `MineBlock`: `difficulty` zero bytes,
then byte `i` replaced by the character `0` (48) for every index `i`. -/
def mineTarget (difficulty : Nat) : List Nat :=
  (List.range difficulty).foldl (fun target i => target.take i ++ 48 :: target.drop (i + 1))
    (List.replicate difficulty 0)

/-- One pass through the body of the loop of `MineBlock`. -/
def Block.bump (b : Block) : Block :=
  let b₁ := { b with Nonce := wrap64 (b.Nonce + 1) }
  { b₁ with Hash := b₁.calculateHash }

/-- The block after a pass through the loop body that leaves the nonce at `k`:
`Nonce` is `k` and `Hash` the digest computed with it. -/
def Block.sealedAt (b : Block) (k : Int) : Block :=
  { b with Nonce := k, Hash := ({ b with Nonce := k }).calculateHash }

/-- The loop `for b.Hash[:difficulty] != target` of `MineBlock`, with fuel: the
condition is evaluated first (and panics when the slice is out of bounds); when it
holds the body runs, provided fuel is left. -/
def mineLoop (difficulty : Nat) (target : List Nat) : Nat → Block → Run Block
  | 0, b =>
    match sliceTo b.Hash difficulty with
    | none => Run.panic "slice bounds out of range"
    | some p => if p ≠ target then Run.outOfFuel else Run.ok b
  | fuel + 1, b =>
    match sliceTo b.Hash difficulty with
    | none => Run.panic "slice bounds out of range"
    | some p => if p ≠ target then mineLoop difficulty target fuel b.bump else Run.ok b

/-- Source `MineBlock`: performs simple proof of work. -/
def Block.MineBlock (b : Block) (difficulty : Nat) (fuel : Nat) : Run Block :=
  mineLoop difficulty (mineTarget difficulty) fuel b

/-- Source `AddTransaction`: the state after the call and the returned error
(`none` is Go `nil`). -/
def Blockchain.AddTransaction (bc : Blockchain) (tx : Transaction) :
    Blockchain × Option String :=
  if tx.Property.ID = "" then (bc, some "invalid property ID")
  else if tx.From = "" ∨ tx.To = "" then (bc, some "invalid from/to addresses")
  else
    match bc.Registry.lookup tx.Property.ID with
    | some prop =>
      if prop.Owner ≠ tx.From then (bc, some "sender does not own the property")
      else ({ bc with PendingTx := bc.PendingTx ++ [tx] }, none)
    | none =>
      if tx.From ≠ "" then (bc, some "cannot transfer non-existent property")
      else ({ bc with PendingTx := bc.PendingTx ++ [{ tx with From := "creator" }] }, none)

/-- The registry update loop of `MinePendingTransactions`. -/
def applyTransactions (registry : List (String × Property)) (txs : List Transaction) :
    List (String × Property) :=
  txs.foldl (fun reg tx => mapStore reg tx.Property.ID { tx.Property with Owner := tx.To }) registry

/-- The struct literal `newBlock := Block{...}` of `MinePendingTransactions`: the
fields `Hash` and `Nonce` are not set and hold the zero values. -/
def newBlock (lastBlock : Block) (pending : List Transaction) (now : Int) : Block :=
  { Index := wrap64 (lastBlock.Index + 1), Timestamp := now, Transactions := pending,
    PrevHash := lastBlock.Hash, Hash := "", Nonce := 0 }

/-- Source `MinePendingTransactions`: mines a new block with the pending
transactions; `now` is the clock reading. -/
def Blockchain.MinePendingTransactions (bc : Blockchain) (_miner : String) (difficulty : Nat)
    (now : Int) (fuel : Nat) : Run Blockchain :=
  if bc.PendingTx.length = 0 then Run.ok bc
  else
    match bc.Chain.getLast? with
    | none => Run.panic "index out of range"
    | some lastBlock =>
      match (newBlock lastBlock bc.PendingTx now).MineBlock difficulty fuel with
      | Run.ok mined =>
        Run.ok { Chain := bc.Chain ++ [mined], PendingTx := [],
                 Registry := applyTransactions bc.Registry bc.PendingTx }
      | Run.panic msg => Run.panic msg
      | Run.outOfFuel => Run.outOfFuel

/-- Source `GetProperty`: retrieves a property from the registry. -/
def Blockchain.GetProperty (bc : Blockchain) (id : String) : Except String Property :=
  match bc.Registry.lookup id with
  | some prop => Except.ok prop
  | none => Except.error "property not found"

/-- The loop of `ValidateChain` from a block `prev` on, over the blocks after it. -/
def validateFrom : Block → List Block → Bool
  | _, [] => true
  | prev, curr :: rest =>
    if curr.PrevHash ≠ prev.Hash then false
    else if curr.Hash ≠ curr.calculateHash then false
    else validateFrom curr rest

/-- Source `ValidateChain`: checks the integrity of the blockchain. -/
def Blockchain.ValidateChain (bc : Blockchain) : Bool :=
  match bc.Chain with
  | [] => true
  | first :: rest => validateFrom first rest

/-- Ledger states reached from `NewBlockchain()` by calls of `AddTransaction` and
of `MinePendingTransactions` that return. -/
inductive Reachable : Blockchain → Prop where
  | init (t₁ t₂ : Int) : Reachable (NewBlockchain t₁ t₂)
  | add {bc : Blockchain} (tx : Transaction) :
      Reachable bc → Reachable (bc.AddTransaction tx).1
  | mine {bc bc₁ : Blockchain} (miner : String) (difficulty : Nat) (now : Int) (fuel : Nat) :
      Reachable bc → bc.MinePendingTransactions miner difficulty now fuel = Run.ok bc₁ →
      Reachable bc₁

/-! ## Inputs of `main.go` and of the scenarios of the specification -/

/-- The registration `tx1` of `main.go`, created at clock reading `ts`. -/
def mainTx1 (ts : Int) : Transaction :=
  { From := "", To := "owner1",
    Property := { ID := "prop1", Owner := "", Description := "House in City A",
                  Location := "123 Street", Value := 500000 },
    Timestamp := ts }

/-- The registration of the scenario: `from` empty, `to` ownerA, property `p1`. -/
def registerP1 (ts : Int) : Transaction :=
  { From := "", To := "ownerA",
    Property := { ID := "p1", Owner := "", Description := "", Location := "", Value := 0 },
    Timestamp := ts }

/-- The transfer of the scenario: `p1` from ownerA to ownerB. -/
def transferP1 (ts : Int) : Transaction :=
  { From := "ownerA", To := "ownerB",
    Property := { ID := "p1", Owner := "", Description := "", Location := "", Value := 0 },
    Timestamp := ts }

/-- A ledger just before sealing: the genesis chain of `NewBlockchain` (clock
readings 1700000000) and one pending transaction, the registration of `p1` as
`AddTransaction` would queue it (sender `creator`). -/
def pendingLedger : Blockchain :=
  { NewBlockchain 1700000000 1700000000 with
    PendingTx := [{ registerP1 1700000100 with From := "creator" }] }

/-- A sealed-looking block on top of the genesis block of `pendingLedger`: index 1,
the pending registration as its content, `Nonce` 0, and in `Hash` a 64-digit
digest that is not the block's own (here a copy of `PrevHash`). -/
def staleBlock : Block :=
  { Index := 1, Timestamp := 1700000487,
    Transactions := [{ registerP1 1700000100 with From := "creator" }],
    PrevHash := "bb28604441395e01a83c193d67c3a5e820dc2a3a342d4780d9f0c346da64beaf",
    Hash := "bb28604441395e01a83c193d67c3a5e820dc2a3a342d4780d9f0c346da64beaf",
    Nonce := 0 }

/-- A ledger with a valid two-block chain: the genesis block of `pendingLedger` and
`staleBlock` sealed with nonce 1, whose digest is stored in `Hash`. -/
def sealedLedger : Blockchain :=
  { Chain := [createGenesisBlock 1700000000 1700000000,
              { staleBlock with
                Nonce := 1,
                Hash := "0015c8abdcce3e1d7520fbfa7c0c52f6b5e3a9ba7591cf51d7bb7fff21a89ef4" }],
    PendingTx := [],
    Registry := [("p1", { ID := "p1", Owner := "ownerA", Description := "", Location := "",
                          Value := 0 })] }

/-- A block prepared the way `createGenesisBlock` prepares one: `Nonce` 0 and, in
`Hash`, the block's own digest for that nonce. -/
def preparedBlock : Block :=
  { Index := 1, Timestamp := 1700000205,
    Transactions := [{ registerP1 1700000100 with From := "creator" }],
    PrevHash := "bb28604441395e01a83c193d67c3a5e820dc2a3a342d4780d9f0c346da64beaf",
    Hash := "8bfa01e994be1b3c1780904a4773faf6b7f9a46b6782a88a9055ea3305289a51",
    Nonce := 0 }

/-- The block `MineBlock(1)` returns on `preparedBlock`: sealed with nonce 3. -/
def minedBlock : Block :=
  { preparedBlock with
    Nonce := 3, Hash := "0d0abc030e0099bc82a861d2586fc3ce8709af2aa769bc6ed079cb8d26b7ba3b" }

/-- The pending registration with the receiver changed: a tampered content. -/
def forgedTx : Transaction :=
  { registerP1 1700000100 with From := "creator", To := "mallory" }

/-- The rejection scenario of the specification: a transfer of `p1` by a sender who
is not its owner. -/
def strangerTx : Transaction :=
  { From := "ownerX", To := "ownerY",
    Property := { ID := "p1", Owner := "", Description := "", Location := "", Value := 0 },
    Timestamp := 1700000600 }

/-- A transfer of the registered `p1` that names no sender. -/
def senderlessTx : Transaction :=
  { From := "", To := "ownerB",
    Property := { ID := "p1", Owner := "", Description := "", Location := "", Value := 0 },
    Timestamp := 1700000600 }

/-- A ledger with the registry of `sealedLedger`, another chain and a transfer
already waiting in the pool. -/
def busyLedger : Blockchain :=
  { Chain := [], PendingTx := [transferP1 1700000300], Registry := sealedLedger.Registry }

/-- A ledger whose pool holds two transactions for `p1`: its registration to
ownerA and, after it, its transfer to ownerB. -/
def doublePoolLedger : Blockchain :=
  { NewBlockchain 1700000000 1700000000 with
    PendingTx := [{ registerP1 1700000100 with From := "creator" }, transferP1 1700000300] }

/-! ## Notions of the specification -/

/-- Specification, section 4.2: a hash "begins with `d` consecutive zero characters". -/
def hasZeroPrefix (hash : String) (d : Nat) : Prop :=
  (goBytes hash).take d = List.replicate d 48

instance (hash : String) (d : Nat) : Decidable (hasZeroPrefix hash d) :=
  inferInstanceAs (Decidable ((goBytes hash).take d = List.replicate d 48))

/-- Specification, section 8 (round-trip): replay of the transactions of a list of
blocks, in block and transaction order, from the empty registry, each transaction
setting `registry[tx.Property.ID]` to `tx.Property` with `Owner := tx.To`. -/
def specReplay (chain : List Block) : List (String × Property) :=
  chain.foldl
    (fun registry block =>
      block.Transactions.foldl
        (fun reg tx => mapStore reg tx.Property.ID { tx.Property with Owner := tx.To }) registry)
    []

/-- Specification, section 8 (tampering): the ledger with the transactions of block
`i` replaced by `txs`, `Hash` and `Nonce` left as they were. -/
def tamperTransactions (bc : Blockchain) (i : Nat) (txs : List Transaction) : Blockchain :=
  match bc.Chain[i]? with
  | some b => { bc with Chain := bc.Chain.set i { b with Transactions := txs } }
  | none => bc

/-! ## Admission on a ledger whose registry is empty -/

/-- With an empty registry `AddTransaction` changes nothing and returns an error:
an empty `From` is refused by the address check, a non-empty one by the
registry branch. -/
theorem addTransaction_of_registry_nil (bc : Blockchain) (tx : Transaction)
    (h : bc.Registry = []) :
    (bc.AddTransaction tx).1 = bc ∧ (bc.AddTransaction tx).2 ≠ none := by
  unfold Blockchain.AddTransaction
  by_cases h₁ : tx.Property.ID = ""
  · simp [h₁]
  · by_cases h₂ : tx.From = "" ∨ tx.To = ""
    · simp [h₁, h₂]
    · have h₃ : tx.From ≠ "" := fun e => h₂ (Or.inl e)
      have h₄ : tx.To ≠ "" := fun e => h₂ (Or.inr e)
      simp [h₁, h, h₃, h₄]

/-- A transaction whose `From` is empty is never admitted, whatever the registry. -/
theorem addTransaction_of_from_empty (bc : Blockchain) (tx : Transaction)
    (hid : tx.Property.ID ≠ "") (hfrom : tx.From = "") :
    bc.AddTransaction tx = (bc, some "invalid from/to addresses") := by
  unfold Blockchain.AddTransaction
  simp [hid, hfrom]

/-- With an empty pending list `MinePendingTransactions` returns at once. -/
theorem minePending_of_pending_nil (bc : Blockchain) (miner : String) (difficulty : Nat)
    (now : Int) (fuel : Nat) (h : bc.PendingTx = []) :
    bc.MinePendingTransactions miner difficulty now fuel = Run.ok bc := by
  unfold Blockchain.MinePendingTransactions
  simp [h]

/-- Every reachable ledger is the ledger `NewBlockchain` returned. -/
theorem reachable_eq_new {bc : Blockchain} (h : Reachable bc) :
    ∃ t₁ t₂, bc = NewBlockchain t₁ t₂ := by
  induction h with
  | init t₁ t₂ => exact ⟨t₁, t₂, rfl⟩
  | add tx _ ih =>
    obtain ⟨t₁, t₂, rfl⟩ := ih
    exact ⟨t₁, t₂, (addTransaction_of_registry_nil _ tx rfl).1⟩
  | mine miner difficulty now fuel _ hm ih =>
    obtain ⟨t₁, t₂, rfl⟩ := ih
    rw [minePending_of_pending_nil _ miner difficulty now fuel rfl] at hm
    exact ⟨t₁, t₂, (Run.ok.inj hm).symm⟩

/-! ## Hashes are 64 hexadecimal digits -/

/-- A hexadecimal digit is one byte of UTF-8. -/
theorem utf8_hextable (n : Nat) :
    utf8 (hextable.getD n '0') = [(hextable.getD n '0').toNat] := by
  rcases Nat.lt_or_ge n 16 with h | h
  · interval_cases n <;> decide
  · rw [List.getD_eq_default _ _ (by simpa [hextable] using h)]
    decide

/-- The hexadecimal encoding has two bytes for every byte encoded. -/
theorem goBytes_EncodeToString_length (bs : List Nat) :
    (goBytes (EncodeToString bs)).length = 2 * bs.length := by
  unfold goBytes EncodeToString
  induction bs with
  | nil => rfl
  | cons b bs ih =>
    simp only [List.flatMap_cons, List.flatMap_append, List.length_append, List.length_cons,
      List.cons_append, List.nil_append, utf8_hextable, List.flatMap_nil, List.append_nil,
      List.singleton_append, List.length_nil] at ih ⊢
    omega

/-- A SHA-256 digest has 32 bytes. -/
theorem Sum256_length (msg : List Nat) : (Sha256.Sum256 msg).length = 32 := by
  simp [Sha256.Sum256, Sha256.digest, Sha256.be32]

/-- The string `calculateHash` returns has 64 bytes. -/
theorem calculateHash_length (b : Block) : (goBytes b.calculateHash).length = 64 := by
  unfold Block.calculateHash
  rw [goBytes_EncodeToString_length, Sum256_length]

/-- The string `calculateHash` returns is never empty. -/
theorem calculateHash_ne_empty (b : Block) : b.calculateHash ≠ "" := by
  intro h
  have h₁ := calculateHash_length b
  rw [h] at h₁
  simp [goBytes] at h₁

/-! ## The proof-of-work loop -/

/-- The target of `MineBlock` is `difficulty` characters `0`. -/
theorem mineTarget_eq (d : Nat) : mineTarget d = List.replicate d 48 := by
  unfold mineTarget
  have key : ∀ k, k ≤ d →
      (List.range k).foldl (fun target i => target.take i ++ 48 :: target.drop (i + 1))
        (List.replicate d 0) = List.replicate k 48 ++ List.replicate (d - k) 0 := by
    intro k
    induction k with
    | zero => intro _; simp
    | succ k ih =>
      intro hk
      rw [List.range_succ, List.foldl_append, ih (by omega)]
      simp only [List.foldl_cons, List.foldl_nil]
      have h₁ : List.take k (List.replicate k 48 ++ List.replicate (d - k) 0)
          = List.replicate k 48 := by
        rw [List.take_append_of_le_length (by simp), List.take_of_length_le (by simp)]
      have h₂ : List.drop (k + 1) (List.replicate k 48 ++ List.replicate (d - k) 0)
          = List.replicate (d - (k + 1)) 0 := by
        rw [List.drop_append_eq_append_drop]
        simp [List.drop_replicate]
        omega
      rw [h₁, h₂, List.replicate_succ' k 48, List.append_assoc]
      rfl
  simpa using key d (le_refl d)

/-- The loop condition on the empty `Hash` at a positive difficulty: the slice is
out of bounds. -/
theorem sliceTo_empty_of_pos (d : Nat) (hd : 1 ≤ d) : sliceTo "" d = none := by
  unfold sliceTo
  have h : (goBytes "").length = 0 := rfl
  rw [h, if_neg (by omega)]

/-- On a block whose `Hash` is empty, `MineBlock` at a positive difficulty panics
at the first evaluation of the loop condition. -/
theorem mineBlock_of_hash_empty (b : Block) (d fuel : Nat) (hb : b.Hash = "") (hd : 1 ≤ d) :
    b.MineBlock d fuel = Run.panic "slice bounds out of range" := by
  unfold Block.MineBlock
  cases fuel <;> simp [mineLoop, hb, sliceTo_empty_of_pos d hd]

/-- At difficulty 0 `MineBlock` returns the block as it was given: the loop
condition is false at once, whatever the stored `Hash`. -/
theorem mineBlock_zero (b : Block) (fuel : Nat) : b.MineBlock 0 fuel = Run.ok b := by
  unfold Block.MineBlock
  cases fuel <;> simp [mineLoop, sliceTo, mineTarget]

/-- A last block whose stored `Hash` is not its `calculateHash` fails validation. -/
theorem validateFrom_append_bad (prev : Block) (rest : List Block) (b : Block)
    (h : b.Hash ≠ b.calculateHash) : validateFrom prev (rest ++ [b]) = false := by
  induction rest generalizing prev with
  | nil => simp [validateFrom, h]
  | cons c rest ih =>
    simp only [List.cons_append, validateFrom]
    split
    · rfl
    · split
      · rfl
      · exact ih c

/-! ## Registration (C1) and the end-to-end scenario (C2) -/

/-- C1: the code refuses what the claim says it accepts. For every ledger state
(whatever its registry) and every transaction with a non-empty `Property.ID` and
`From == ""`, `AddTransaction` returns the error "invalid from/to addresses" and
leaves the ledger, `PendingTx` included, as it was: the check `tx.From == ""` runs
before the registry is consulted, so the registration branch is never reached. -/
theorem registration_refused (bc : Blockchain) (tx : Transaction)
    (hid : tx.Property.ID ≠ "") (hfrom : tx.From = "") :
    bc.AddTransaction tx = (bc, some "invalid from/to addresses") := by
  unfold Blockchain.AddTransaction
  simp [hid, hfrom]

/-- C1 at the input of `main.go`: on the fresh ledger, `tx1` is refused. -/
theorem registration_refused_witness :
    (NewBlockchain 1700000000 1700000000).AddTransaction (mainTx1 1700000050)
      = (NewBlockchain 1700000000 1700000000, some "invalid from/to addresses") :=
  registration_refused _ _ (by decide) (by decide)

/-- C2: the scenario on the code. On the fresh ledger (any clock readings) the
registration of `p1` is refused with "invalid from/to addresses"; sealing at
difficulty 2 then returns the ledger unchanged, so `Chain` has length 1 (not 2)
and `GetProperty("p1")` fails; the transfer from ownerA to ownerB is refused with
"cannot transfer non-existent property". -/
theorem scenario_on_code (t₁ t₂ ts now : Int) (fuel : Nat) :
    ((NewBlockchain t₁ t₂).AddTransaction (registerP1 ts)).2
        = some "invalid from/to addresses" ∧
    ((NewBlockchain t₁ t₂).AddTransaction (registerP1 ts)).1.MinePendingTransactions
        "miner" 2 now fuel = Run.ok (NewBlockchain t₁ t₂) ∧
    (NewBlockchain t₁ t₂).Chain.length = 1 ∧
    (NewBlockchain t₁ t₂).GetProperty "p1" = Except.error "property not found" ∧
    (NewBlockchain t₁ t₂).AddTransaction (transferP1 ts)
        = (NewBlockchain t₁ t₂, some "cannot transfer non-existent property") := by
  have h : (NewBlockchain t₁ t₂).AddTransaction (registerP1 ts)
      = (NewBlockchain t₁ t₂, some "invalid from/to addresses") :=
    addTransaction_of_from_empty _ _ (by simp [registerP1]) rfl
  refine ⟨by rw [h], ?_, rfl, rfl, ?_⟩
  · rw [h]
    exact minePending_of_pending_nil _ _ _ _ _ rfl
  · unfold Blockchain.AddTransaction
    simp [transferP1, NewBlockchain]

/-! ## Chain validity on reachable ledgers (C3) -/

/-- C3: every ledger reached from `NewBlockchain()` by `AddTransaction` calls and
returning `MinePendingTransactions` calls satisfies `ValidateChain()`. -/
theorem validateChain_of_reachable (bc : Blockchain) (h : Reachable bc) :
    bc.ValidateChain = true := by
  obtain ⟨t₁, t₂, rfl⟩ := reachable_eq_new h
  rfl

/-- C3 at a concrete run: fresh ledger, `tx1` of `main.go` submitted, then a
sealing call at difficulty 4. -/
theorem validateChain_of_reachable_witness :
    (NewBlockchain 1700000000 1700000000).ValidateChain = true :=
  validateChain_of_reachable _
    (Reachable.mine "miner1" 4 1700000060 0
      (Reachable.add (mainTx1 1700000050) (Reachable.init 1700000000 1700000000))
      (by rw [(addTransaction_of_registry_nil _ _ rfl).1]
          exact minePending_of_pending_nil _ _ _ _ _ rfl))

/-! ## Sealing a block (C4, C5) and the first test of the loop (C6) -/

/-- C4: the code breaks the invariant the claim states. For every ledger with a
non-empty `Chain` and a non-empty `PendingTx`, `MinePendingTransactions` at
difficulty 0 returns (whatever the fuel) with the block `newBlock` appended as it
was built: its `PrevHash` is the old last block's `Hash`, but its `Hash` is still
the empty string and differs from `calculateHash` of the block, and
`ValidateChain()` on the resulting ledger is false. -/
theorem seal_at_zero_invalidates (bc : Blockchain) (miner : String) (now : Int) (fuel : Nat)
    (hc : bc.Chain ≠ []) (hp : bc.PendingTx ≠ []) :
    ∃ lastBlock, bc.Chain.getLast? = some lastBlock ∧
      bc.MinePendingTransactions miner 0 now fuel
        = Run.ok { Chain := bc.Chain ++ [newBlock lastBlock bc.PendingTx now],
                   PendingTx := [],
                   Registry := applyTransactions bc.Registry bc.PendingTx } ∧
      (newBlock lastBlock bc.PendingTx now).PrevHash = lastBlock.Hash ∧
      (newBlock lastBlock bc.PendingTx now).Hash
        ≠ (newBlock lastBlock bc.PendingTx now).calculateHash ∧
      Blockchain.ValidateChain
        { Chain := bc.Chain ++ [newBlock lastBlock bc.PendingTx now],
          PendingTx := [],
          Registry := applyTransactions bc.Registry bc.PendingTx } = false := by
  cases hl : bc.Chain.getLast? with
  | none => exact absurd (List.getLast?_eq_none_iff.mp hl) hc
  | some lastBlock =>
    have hlen : bc.PendingTx.length ≠ 0 := fun h => hp (List.length_eq_zero.mp h)
    have hbad : (newBlock lastBlock bc.PendingTx now).Hash
        ≠ (newBlock lastBlock bc.PendingTx now).calculateHash :=
      fun h => calculateHash_ne_empty _ h.symm
    refine ⟨lastBlock, rfl, ?_, rfl, hbad, ?_⟩
    · unfold Blockchain.MinePendingTransactions
      simp [hlen, hl, mineBlock_zero]
    · unfold Blockchain.ValidateChain
      cases hch : bc.Chain with
      | nil => exact absurd hch hc
      | cons first rest => exact validateFrom_append_bad first rest _ hbad

/-- C4 on `pendingLedger`: sealing at difficulty 0 completes and the sealed chain
fails `ValidateChain()`. -/
theorem seal_at_zero_invalidates_witness :
    ∃ lastBlock, pendingLedger.Chain.getLast? = some lastBlock ∧
      pendingLedger.MinePendingTransactions "miner1" 0 1700000200 0
        = Run.ok { Chain := pendingLedger.Chain
                      ++ [newBlock lastBlock pendingLedger.PendingTx 1700000200],
                   PendingTx := [],
                   Registry := applyTransactions pendingLedger.Registry pendingLedger.PendingTx } ∧
      (newBlock lastBlock pendingLedger.PendingTx 1700000200).PrevHash = lastBlock.Hash ∧
      (newBlock lastBlock pendingLedger.PendingTx 1700000200).Hash
        ≠ (newBlock lastBlock pendingLedger.PendingTx 1700000200).calculateHash ∧
      Blockchain.ValidateChain
        { Chain := pendingLedger.Chain
            ++ [newBlock lastBlock pendingLedger.PendingTx 1700000200],
          PendingTx := [],
          Registry := applyTransactions pendingLedger.Registry pendingLedger.PendingTx }
        = false :=
  seal_at_zero_invalidates pendingLedger "miner1" 1700000200 0
    (by simp [pendingLedger, NewBlockchain]) (by simp [pendingLedger])

/-- C5: the code does not complete where the claim says it does. For every ledger
with a non-empty `Chain` and a non-empty `PendingTx` and every difficulty `d ≥ 1`,
`MinePendingTransactions` panics (slice bounds out of range, in the first test of
the loop of `MineBlock`), whatever the fuel: nothing is appended and `PendingTx`
is not cleared. -/
theorem seal_panics_of_pos (bc : Blockchain) (miner : String) (d : Nat) (now : Int)
    (fuel : Nat) (hc : bc.Chain ≠ []) (hp : bc.PendingTx ≠ []) (hd : 1 ≤ d) :
    bc.MinePendingTransactions miner d now fuel = Run.panic "slice bounds out of range" := by
  cases hl : bc.Chain.getLast? with
  | none => exact absurd (List.getLast?_eq_none_iff.mp hl) hc
  | some lastBlock =>
    have hlen : bc.PendingTx.length ≠ 0 := fun h => hp (List.length_eq_zero.mp h)
    unfold Blockchain.MinePendingTransactions
    simp [hlen, hl, mineBlock_of_hash_empty (newBlock lastBlock bc.PendingTx now) d fuel rfl hd]

/-- C5 on `pendingLedger` at the default difficulty 4 of the API: the call panics. -/
theorem seal_panics_of_pos_witness :
    pendingLedger.MinePendingTransactions "miner1" 4 1700000200 1000
      = Run.panic "slice bounds out of range" :=
  seal_panics_of_pos pendingLedger "miner1" 4 1700000200 1000
    (by simp [pendingLedger, NewBlockchain]) (by simp [pendingLedger]) (by decide)

/-- C6: the error branch is reached. On the block `MinePendingTransactions` builds
(any last block, any pending list, any clock reading), whose `Hash` is the empty
string, `MineBlock` at every difficulty `d + 1` (so at every difficulty from 1 to
63) panics in the first evaluation of `b.Hash[:difficulty]`, whatever the fuel. -/
theorem mineBlock_panics_on_newBlock (lastBlock : Block) (pending : List Transaction)
    (now : Int) (d fuel : Nat) :
    (newBlock lastBlock pending now).MineBlock (d + 1) fuel
      = Run.panic "slice bounds out of range" :=
  mineBlock_of_hash_empty _ (d + 1) fuel rfl (by omega)

/-! ## What the loop of `MineBlock` returns -/

/-- The loop test `b.Hash[:d] == target` succeeds exactly on a zero prefix. -/
theorem sliceTo_eq_replicate_iff (s : String) (d : Nat) :
    sliceTo s d = some (List.replicate d 48) ↔ hasZeroPrefix s d := by
  unfold sliceTo hasZeroPrefix
  constructor
  · intro h
    split at h
    · exact Option.some.inj h
    · exact absurd h (by simp)
  · intro h
    have hlen : d ≤ (goBytes s).length := by
      have h₁ := congrArg List.length h
      simp only [List.length_take, List.length_replicate] at h₁
      omega
    rw [if_pos hlen, h]

/-- Incrementing a wrapped counter. -/
theorem wrap64_succ (x : Int) : wrap64 (wrap64 x + 1) = wrap64 (x + 1) := by
  unfold wrap64
  omega

/-- A pass through the loop body from a block sealed at some nonce. -/
theorem bump_sealedAt (b : Block) (k : Int) :
    (b.sealedAt k).bump = b.sealedAt (wrap64 (k + 1)) := rfl

/-- The first pass through the loop body. -/
theorem bump_eq_sealedAt (b : Block) : b.bump = b.sealedAt (wrap64 (b.Nonce + 1)) := rfl

/-- The loop, started on the block sealed at the `j`-th nonce after `n₀`: when it
returns, it returns the block sealed at the `t`-th nonce for some `t ≥ j`, that
block passes the test, and no block in between does. -/
theorem mineLoop_run (b : Block) (n₀ : Int) (d : Nat) :
    ∀ (fuel j : Nat) (r : Block),
      mineLoop d (List.replicate d 48) fuel (b.sealedAt (wrap64 (n₀ + j))) = Run.ok r →
      ∃ t : Nat, j ≤ t ∧ r = b.sealedAt (wrap64 (n₀ + t)) ∧ hasZeroPrefix r.Hash d ∧
        ∀ i : Nat, j ≤ i → i < t → ¬ hasZeroPrefix (b.sealedAt (wrap64 (n₀ + i))).Hash d := by
  intro fuel
  induction fuel with
  | zero =>
    intro j r h
    unfold mineLoop at h
    cases hs : sliceTo (b.sealedAt (wrap64 (n₀ + j))).Hash d with
    | none => simp [hs] at h
    | some p =>
      by_cases hp : p = List.replicate d 48
      · simp only [hs, hp, ne_eq, not_true_eq_false, if_false] at h
        have hr := Run.ok.inj h
        subst hr
        refine ⟨j, le_refl j, rfl, ?_, fun i h₁ h₂ => absurd h₂ (by omega)⟩
        exact (sliceTo_eq_replicate_iff _ d).mp (by rw [hs, hp])
      · simp [hs, hp] at h
  | succ fuel ih =>
    intro j r h
    unfold mineLoop at h
    cases hs : sliceTo (b.sealedAt (wrap64 (n₀ + j))).Hash d with
    | none => simp [hs] at h
    | some p =>
      by_cases hp : p = List.replicate d 48
      · simp only [hs, hp, ne_eq, not_true_eq_false, if_false] at h
        have hr := Run.ok.inj h
        subst hr
        refine ⟨j, le_refl j, rfl, ?_, fun i h₁ h₂ => absurd h₂ (by omega)⟩
        exact (sliceTo_eq_replicate_iff _ d).mp (by rw [hs, hp])
      · simp only [hs, ne_eq, hp, not_false_eq_true, if_true] at h
        rw [bump_sealedAt, wrap64_succ] at h
        have h' : mineLoop d (List.replicate d 48) fuel
            (b.sealedAt (wrap64 (n₀ + ((j + 1 : Nat) : Int)))) = Run.ok r := by
          rw [← h]; congr 3; push_cast; ring
        obtain ⟨t, ht, hr, hz, hall⟩ := ih (j + 1) r h'
        refine ⟨t, by omega, hr, hz, fun i h₁ h₂ => ?_⟩
        rcases Nat.eq_or_lt_of_le h₁ with he | hlt
        · subst he
          intro hwin
          rw [← sliceTo_eq_replicate_iff, hs] at hwin
          exact hp (Option.some.inj hwin)
        · exact hall i hlt h₂

/-- What a returning `MineBlock` returns: either the block untouched, its stored
`Hash` already having the zero prefix, or the block sealed at the `t`-th nonce
after its own (`t ≥ 1`), the first of these whose digest has the zero prefix. -/
theorem mineBlock_run (b r : Block) (d fuel : Nat) (h : b.MineBlock d fuel = Run.ok r) :
    (r = b ∧ hasZeroPrefix b.Hash d) ∨
    (¬ hasZeroPrefix b.Hash d ∧ ∃ t : Nat, 1 ≤ t ∧ r = b.sealedAt (wrap64 (b.Nonce + t)) ∧
      hasZeroPrefix r.Hash d ∧
      ∀ i : Nat, 1 ≤ i → i < t → ¬ hasZeroPrefix (b.sealedAt (wrap64 (b.Nonce + i))).Hash d) := by
  unfold Block.MineBlock at h
  rw [mineTarget_eq] at h
  cases hs : sliceTo b.Hash d with
  | none => cases fuel <;> simp [mineLoop, hs] at h
  | some p =>
    by_cases hp : p = List.replicate d 48
    · left
      have hz : hasZeroPrefix b.Hash d := (sliceTo_eq_replicate_iff _ d).mp (by rw [hs, hp])
      cases fuel <;> simp [mineLoop, hs, hp] at h <;> exact ⟨h.symm, hz⟩
    · right
      have hz : ¬ hasZeroPrefix b.Hash d := by
        intro hwin
        rw [← sliceTo_eq_replicate_iff, hs] at hwin
        exact hp (Option.some.inj hwin)
      refine ⟨hz, ?_⟩
      cases fuel with
      | zero => simp [mineLoop, hs, hp] at h
      | succ fuel =>
        simp only [mineLoop, hs, ne_eq, hp, not_false_eq_true, if_true] at h
        rw [bump_eq_sealedAt] at h
        exact mineLoop_run b b.Nonce d fuel 1 r h

/-- A returning `MineBlock` leaves `Index`, `Timestamp`, `PrevHash` and
`Transactions` as they were. -/
theorem mineBlock_frame (b r : Block) (d fuel : Nat) (h : b.MineBlock d fuel = Run.ok r) :
    r.Index = b.Index ∧ r.Timestamp = b.Timestamp ∧ r.PrevHash = b.PrevHash ∧
      r.Transactions = b.Transactions := by
  rcases mineBlock_run b r d fuel h with ⟨hr, _⟩ | ⟨_, t, _, hr, _⟩
  · subst hr; exact ⟨rfl, rfl, rfl, rfl⟩
  · subst hr; exact ⟨rfl, rfl, rfl, rfl⟩

/-! ## Postcondition of `MineBlock` (C7) and the first winning nonce (C8) -/

/-- C7 as stated fails: `staleBlock` stores a `Hash` that is not its own digest;
`MineBlock(0)` returns it untouched, so the resulting `Hash` differs from
`calculateHash` of the resulting block. -/
theorem mineBlock_returns_stale_hash :
    staleBlock.MineBlock 0 10 = Run.ok staleBlock ∧
    staleBlock.calculateHash
      = "0f6ee2843efd9dc25f75595ab9bd76c2a79466cf51cdb8e1cd9f90201ae411b2" ∧
    staleBlock.Hash ≠ staleBlock.calculateHash := by
  decide!

/-- C7, amended: for every block `b` and difficulty `d` for which `MineBlock(d)`
returns, the resulting `Hash` begins with `d` characters `0`, and `Index`,
`Timestamp`, `PrevHash` and `Transactions` are unchanged; the resulting `Hash` is
`calculateHash` of the resulting block provided the `Hash` given was already the
block's digest or did not begin with `d` characters `0` (so that the loop body ran
at least once). -/
theorem mineBlock_postcondition (b r : Block) (d fuel : Nat)
    (h : b.MineBlock d fuel = Run.ok r) :
    hasZeroPrefix r.Hash d ∧
    r.Index = b.Index ∧ r.Timestamp = b.Timestamp ∧ r.PrevHash = b.PrevHash ∧
    r.Transactions = b.Transactions ∧
    ((b.Hash = b.calculateHash ∨ ¬ hasZeroPrefix b.Hash d) → r.Hash = r.calculateHash) := by
  obtain ⟨h₁, h₂, h₃, h₄⟩ := mineBlock_frame b r d fuel h
  rcases mineBlock_run b r d fuel h with ⟨hr, hz⟩ | ⟨hz, t, _, hr, hzr, _⟩
  · subst hr
    exact ⟨hz, h₁, h₂, h₃, h₄, fun hpre => hpre.elim id (fun hn => absurd hz hn)⟩
  · subst hr
    exact ⟨hzr, h₁, h₂, h₃, h₄, fun _ => rfl⟩

/-- C7, amended, on `preparedBlock` at difficulty 1: the call returns `minedBlock`
(nonce 3), whose `Hash` begins with `0` and is the digest of the returned block. -/
theorem mineBlock_postcondition_witness :
    preparedBlock.MineBlock 1 5 = Run.ok minedBlock ∧
    hasZeroPrefix minedBlock.Hash 1 ∧
    minedBlock.Index = preparedBlock.Index ∧ minedBlock.Timestamp = preparedBlock.Timestamp ∧
    minedBlock.PrevHash = preparedBlock.PrevHash ∧
    minedBlock.Transactions = preparedBlock.Transactions ∧
    minedBlock.Hash = minedBlock.calculateHash :=
  have h := mineBlock_postcondition preparedBlock minedBlock 1 5 (by decide!)
  ⟨by decide!, h.1, h.2.1, h.2.2.1, h.2.2.2.1, h.2.2.2.2.1,
    h.2.2.2.2.2 (Or.inr (by decide))⟩

/-- C8 as stated fails: on `staleBlock` (`Nonce` 0) `MineBlock(1)` returns with
nonce 1, although the digest of the block with nonce 0 already begins with `0`:
that digest is never computed, only the stored `Hash` is tested for nonce 0. -/
theorem mineBlock_skips_nonce_zero :
    staleBlock.Nonce = 0 ∧
    staleBlock.MineBlock 1 5
      = Run.ok { staleBlock with
                 Nonce := 1,
                 Hash := "0015c8abdcce3e1d7520fbfa7c0c52f6b5e3a9ba7591cf51d7bb7fff21a89ef4" } ∧
    ({ staleBlock with Nonce := 0 } : Block).calculateHash
      = "0f6ee2843efd9dc25f75595ab9bd76c2a79466cf51cdb8e1cd9f90201ae411b2" ∧
    hasZeroPrefix ({ staleBlock with Nonce := 0 } : Block).calculateHash 1 := by
  decide!

/-- C8, amended: for every block `b` with `Nonce == 0` and every difficulty `d` for
which `MineBlock(d)` returns with nonce `n`, no `k` with `1 ≤ k < n` is such that
`calculateHash` of `b` with nonce `k` begins with `d` characters `0`; the same
holds for `k = 0` provided the `Hash` given was `calculateHash(b)`. -/
theorem mineBlock_first_winner (b r : Block) (d fuel : Nat) (h0 : b.Nonce = 0)
    (h : b.MineBlock d fuel = Run.ok r) (k : Int) (hk : k < r.Nonce)
    (hk0 : 1 ≤ k ∨ (k = 0 ∧ b.Hash = b.calculateHash)) :
    ¬ hasZeroPrefix ({ b with Nonce := k } : Block).calculateHash d := by
  rcases mineBlock_run b r d fuel h with ⟨hr, _⟩ | ⟨hz, t, _, hr, _, hall⟩
  · subst hr
    rw [h0] at hk
    rcases hk0 with h₁ | ⟨h₁, _⟩ <;> omega
  · subst hr
    rw [h0] at hk hall
    have hn : (b.sealedAt (wrap64 (0 + (t : Int)))).Nonce = wrap64 (0 + (t : Int)) := rfl
    rw [hn] at hk
    rcases hk0 with h₁ | ⟨h₁, h₂⟩
    · have hi := hall k.toNat (by omega) (by unfold wrap64 at hk; omega)
      have hw : wrap64 (0 + (k.toNat : Int)) = k := by unfold wrap64 at hk ⊢; omega
      rw [hw] at hi
      exact hi
    · subst h₁
      have hb : ({ b with Nonce := 0 } : Block) = b := by rw [← h0]
      rw [hb, ← h₂]
      exact hz

/-- C8, amended, on `preparedBlock` at difficulty 1: the call returns with nonce 3,
and the digest for nonce 1 does not begin with `0`. -/
theorem mineBlock_first_winner_witness :
    preparedBlock.MineBlock 1 5 = Run.ok minedBlock ∧ minedBlock.Nonce = 3 ∧
    ¬ hasZeroPrefix ({ preparedBlock with Nonce := 1 } : Block).calculateHash 1 :=
  ⟨by decide!, rfl,
    mineBlock_first_winner preparedBlock minedBlock 1 5 rfl (by decide!) 1 (by decide)
      (Or.inl (by decide))⟩

/-! ## Replay of the chain (C9) -/

/-- `AddTransaction` never touches `Chain` or `Registry`. -/
theorem addTransaction_frame (bc : Blockchain) (tx : Transaction) :
    (bc.AddTransaction tx).1.Chain = bc.Chain ∧
      (bc.AddTransaction tx).1.Registry = bc.Registry := by
  unfold Blockchain.AddTransaction
  repeat' split
  all_goals exact ⟨rfl, rfl⟩

/-- Replay of a chain extended by one block. -/
theorem specReplay_append (chain : List Block) (b : Block) :
    specReplay (chain ++ [b]) = applyTransactions (specReplay chain) b.Transactions := by
  unfold specReplay applyTransactions
  rw [List.foldl_append]
  rfl

/-- A returning `MinePendingTransactions` keeps the registry equal to the replay of
the blocks after the first. -/
theorem replay_preserved_by_mine (bc bc₁ : Blockchain) (miner : String) (d : Nat)
    (now : Int) (fuel : Nat) (hinv : specReplay (bc.Chain.drop 1) = bc.Registry)
    (hm : bc.MinePendingTransactions miner d now fuel = Run.ok bc₁) :
    specReplay (bc₁.Chain.drop 1) = bc₁.Registry := by
  unfold Blockchain.MinePendingTransactions at hm
  by_cases hlen : bc.PendingTx.length = 0
  · rw [if_pos hlen] at hm
    rw [← Run.ok.inj hm]
    exact hinv
  · rw [if_neg hlen] at hm
    cases hl : bc.Chain.getLast? with
    | none => simp [hl] at hm
    | some lastBlock =>
      cases hb : (newBlock lastBlock bc.PendingTx now).MineBlock d fuel with
      | panic msg => simp [hl, hb] at hm
      | outOfFuel => simp [hl, hb] at hm
      | ok mined =>
        simp only [hl, hb] at hm
        rw [← Run.ok.inj hm]
        have hne : 1 ≤ bc.Chain.length := by
          cases hc : bc.Chain with
          | nil => rw [hc] at hl; simp at hl
          | cons _ _ => simp
        have htx : mined.Transactions = bc.PendingTx := (mineBlock_frame _ _ d fuel hb).2.2.2
        show specReplay ((bc.Chain ++ [mined]).drop 1) = applyTransactions bc.Registry bc.PendingTx
        rw [List.drop_append_of_le_length hne, specReplay_append, hinv, htx]

/-- C9 as stated fails: on the fresh ledger the replay that starts with block 0
registers the placeholder property of the genesis transaction, while `Registry`
is the empty map. -/
theorem replay_from_genesis_differs :
    specReplay (NewBlockchain 1700000000 1700000000).Chain
      = [("genesis_property",
          { ID := "genesis_property", Owner := "genesis", Description := "Genesis Property",
            Location := "N/A", Value := 0 })] ∧
    (NewBlockchain 1700000000 1700000000).Registry = [] ∧
    specReplay (NewBlockchain 1700000000 1700000000).Chain
      ≠ (NewBlockchain 1700000000 1700000000).Registry := by
  refine ⟨rfl, rfl, ?_⟩
  intro h
  exact absurd (congrArg List.length h) (by decide)

/-- C9, amended: for every ledger reachable from `NewBlockchain()` the replay of
the transactions of the blocks after the genesis block (block 1 onwards, in block
and transaction order, from the empty map) yields exactly `Registry`. -/
theorem registry_eq_replay_of_reachable (bc : Blockchain) (h : Reachable bc) :
    specReplay (bc.Chain.drop 1) = bc.Registry := by
  induction h with
  | init t₁ t₂ => rfl
  | add tx _ ih =>
    rw [(addTransaction_frame _ tx).1, (addTransaction_frame _ tx).2]
    exact ih
  | mine miner difficulty now fuel _ hm ih =>
    exact replay_preserved_by_mine _ _ miner difficulty now fuel ih hm

/-- C9, amended, at a concrete run: fresh ledger, `tx1` of `main.go` submitted. -/
theorem registry_eq_replay_of_reachable_witness :
    specReplay
        (((NewBlockchain 1700000000 1700000000).AddTransaction (mainTx1 1700000050)).1.Chain.drop 1)
      = ((NewBlockchain 1700000000 1700000000).AddTransaction (mainTx1 1700000050)).1.Registry :=
  registry_eq_replay_of_reachable _
    (Reachable.add (mainTx1 1700000050) (Reachable.init 1700000000 1700000000))

/-! ## Tampering with sealed transactions (C10) -/

/-- On a chain that validates, every block after the first stores its own digest. -/
theorem validateFrom_getElem (prev : Block) (rest : List Block) (j : Nat) (b : Block)
    (hv : validateFrom prev rest = true) (hb : rest[j]? = some b) :
    b.Hash = b.calculateHash := by
  induction rest generalizing prev j with
  | nil => simp at hb
  | cons c rest ih =>
    unfold validateFrom at hv
    split at hv
    · exact absurd hv (by simp)
    · split at hv
      · exact absurd hv (by simp)
      · rename_i h₁ h₂
        cases j with
        | zero =>
          simp only [List.getElem?_cons_zero, Option.some.injEq] at hb
          subst hb
          exact not_not.mp h₂
        | succ j =>
          simp only [List.getElem?_cons_succ] at hb
          exact ih c j hv hb

/-- C10 as stated fails at the genesis block: on the fresh ledger, replacing the
transactions of block 0 by a list with another serialization leaves
`ValidateChain()` true, since the loop starts at block 1 and never recomputes the
digest of block 0. -/
theorem tamper_genesis_undetected :
    (NewBlockchain 1700000000 1700000000).ValidateChain = true ∧
    marshalTransactions [forgedTx]
      ≠ (createGenesisBlock 1700000000 1700000000).transactionsToString ∧
    (tamperTransactions (NewBlockchain 1700000000 1700000000) 0 [forgedTx]).Chain
      = [{ createGenesisBlock 1700000000 1700000000 with Transactions := [forgedTx] }] ∧
    (tamperTransactions (NewBlockchain 1700000000 1700000000) 0 [forgedTx]).ValidateChain
      = true := by
  refine ⟨rfl, by decide!, rfl, rfl⟩

/-- C10, amended: for every ledger whose `Chain` satisfies `ValidateChain()`, every
position `i` with `1 ≤ i < len(Chain)` (block `b`) and every replacement `txs` of
the transactions of block `i` for which the digest of the tampered block differs
from the digest of the original one, `ValidateChain()` on the tampered chain
returns false. -/
theorem tamper_detected (bc : Blockchain) (i : Nat) (b : Block) (txs : List Transaction)
    (hv : bc.ValidateChain = true) (hi : 1 ≤ i) (hb : bc.Chain[i]? = some b)
    (hne : ({ b with Transactions := txs } : Block).calculateHash ≠ b.calculateHash) :
    (tamperTransactions bc i txs).ValidateChain = false := by
  unfold tamperTransactions
  rw [hb]
  unfold Blockchain.ValidateChain at hv ⊢
  cases hc : bc.Chain with
  | nil => rw [hc] at hb; simp at hb
  | cons first rest =>
    rw [hc] at hv hb
    obtain ⟨j, rfl⟩ : ∃ j, i = j + 1 := ⟨i - 1, by omega⟩
    simp only [List.getElem?_cons_succ] at hb
    simp only [List.set_cons_succ]
    have horig : b.Hash = b.calculateHash := validateFrom_getElem first rest j b hv hb
    have hj : j < rest.length := by
      rcases List.getElem?_eq_some.mp hb with ⟨hlt, _⟩
      exact hlt
    cases hres : validateFrom first (rest.set j { b with Transactions := txs }) with
    | false => rfl
    | true =>
      have hnew := validateFrom_getElem first _ j { b with Transactions := txs } hres
        (by rw [List.getElem?_set_self hj])
      exact absurd (hnew.symm.trans horig) hne

/-- C10, amended, on `sealedLedger`: replacing the transactions of block 1 by the
forged registration is detected. -/
theorem tamper_detected_witness :
    sealedLedger.ValidateChain = true ∧
    (tamperTransactions sealedLedger 1 [forgedTx]).ValidateChain = false :=
  ⟨by decide!,
    tamper_detected sealedLedger 1
      { staleBlock with
        Nonce := 1, Hash := "0015c8abdcce3e1d7520fbfa7c0c52f6b5e3a9ba7591cf51d7bb7fff21a89ef4" }
      [forgedTx] (by decide!) (by decide) rfl (by decide!)⟩

/-! ## The outcomes of `AddTransaction` -/

/-- The one way `AddTransaction` accepts: the property is registered and the
sender is its recorded owner; the transaction is queued as it was given. -/
theorem addTransaction_accept (bc : Blockchain) (tx : Transaction) (prop : Property)
    (hid : tx.Property.ID ≠ "") (hfrom : tx.From ≠ "") (hto : tx.To ≠ "")
    (hreg : bc.Registry.lookup tx.Property.ID = some prop) (hown : prop.Owner = tx.From) :
    bc.AddTransaction tx = ({ bc with PendingTx := bc.PendingTx ++ [tx] }, none) := by
  unfold Blockchain.AddTransaction
  simp [hid, hfrom, hto, hreg, hown]

/-- Every call of `AddTransaction` either returns an error and the ledger as it
was, or returns nil with the transaction appended to `PendingTx`, in which case
the registry names the sender as the owner. -/
theorem addTransaction_cases (bc : Blockchain) (tx : Transaction) :
    (∃ e, bc.AddTransaction tx = (bc, some e)) ∨
    (bc.AddTransaction tx = ({ bc with PendingTx := bc.PendingTx ++ [tx] }, none) ∧
      tx.Property.ID ≠ "" ∧ tx.From ≠ "" ∧ tx.To ≠ "" ∧
      ∃ prop, bc.Registry.lookup tx.Property.ID = some prop ∧ prop.Owner = tx.From) := by
  by_cases hid : tx.Property.ID = ""
  · left; exact ⟨"invalid property ID", by unfold Blockchain.AddTransaction; simp [hid]⟩
  · by_cases hfrom : tx.From = ""
    · left
      exact ⟨"invalid from/to addresses", by unfold Blockchain.AddTransaction; simp [hid, hfrom]⟩
    · by_cases hto : tx.To = ""
      · left
        exact ⟨"invalid from/to addresses", by unfold Blockchain.AddTransaction; simp [hid, hto]⟩
      · cases hreg : bc.Registry.lookup tx.Property.ID with
        | none =>
          left
          exact ⟨"cannot transfer non-existent property", by
            unfold Blockchain.AddTransaction; simp [hid, hfrom, hto, hreg]⟩
        | some prop =>
          by_cases hown : prop.Owner = tx.From
          · right
            exact ⟨addTransaction_accept bc tx prop hid hfrom hto hreg hown, hid, hfrom, hto,
              prop, rfl, hown⟩
          · left
            exact ⟨"sender does not own the property", by
              unfold Blockchain.AddTransaction; simp [hid, hfrom, hto, hreg, hown]⟩

/-! ## Rejections of `AddTransaction` (C11, C12, C13) -/

/-- C11 as stated fails for `From == ""`: on `sealedLedger`, where `p1` is
registered to ownerA, a transfer of `p1` with an empty sender (which differs from
the owner) is refused with "invalid from/to addresses", not with "sender does not
own the property". -/
theorem senderless_not_reported_as_notOwner :
    sealedLedger.Registry.lookup senderlessTx.Property.ID
      = some { ID := "p1", Owner := "ownerA", Description := "", Location := "", Value := 0 } ∧
    senderlessTx.From ≠ "ownerA" ∧
    sealedLedger.AddTransaction senderlessTx = (sealedLedger, some "invalid from/to addresses") ∧
    (sealedLedger.AddTransaction senderlessTx).2 ≠ some "sender does not own the property" := by
  have h : sealedLedger.AddTransaction senderlessTx
      = (sealedLedger, some "invalid from/to addresses") :=
    addTransaction_of_from_empty _ _ (by decide) rfl
  refine ⟨rfl, by decide, h, ?_⟩
  rw [h]
  decide

/-- C11, amended: for every ledger state in which `Registry` has an entry `prop`
for `tx.Property.ID`, and every `tx` with non-empty `Property.ID`, non-empty `To`
and a non-empty `From` that differs from `prop.Owner`, `AddTransaction(tx)`
returns the error "sender does not own the property", the ledger (`PendingTx`
included) unchanged. -/
theorem notOwner_rejected (bc : Blockchain) (tx : Transaction) (prop : Property)
    (hreg : bc.Registry.lookup tx.Property.ID = some prop)
    (hid : tx.Property.ID ≠ "") (hto : tx.To ≠ "") (hfrom : tx.From ≠ "")
    (hown : prop.Owner ≠ tx.From) :
    bc.AddTransaction tx = (bc, some "sender does not own the property") := by
  unfold Blockchain.AddTransaction
  simp [hid, hfrom, hto, hreg, hown]

/-- C11, amended, on the rejection scenario: ownerX tries to transfer `p1`, which
`sealedLedger` records as owned by ownerA. -/
theorem notOwner_rejected_witness :
    sealedLedger.AddTransaction strangerTx
      = (sealedLedger, some "sender does not own the property") :=
  notOwner_rejected sealedLedger strangerTx
    { ID := "p1", Owner := "ownerA", Description := "", Location := "", Value := 0 }
    rfl (by decide) (by decide) (by decide) (by decide)

/-- C12: for every ledger state in which `Registry` has no entry for
`tx.Property.ID`, and every `tx` with non-empty `Property.ID`, `To` and `From`,
`AddTransaction(tx)` returns the error "cannot transfer non-existent property",
the ledger (`PendingTx` included) unchanged. -/
theorem unregistered_transfer_rejected (bc : Blockchain) (tx : Transaction)
    (hreg : bc.Registry.lookup tx.Property.ID = none)
    (hid : tx.Property.ID ≠ "") (hto : tx.To ≠ "") (hfrom : tx.From ≠ "") :
    bc.AddTransaction tx = (bc, some "cannot transfer non-existent property") := by
  unfold Blockchain.AddTransaction
  simp [hid, hfrom, hto, hreg]

/-- C12 on the fresh ledger: the transfer of the unregistered `p1`. -/
theorem unregistered_transfer_rejected_witness :
    (NewBlockchain 1700000000 1700000000).AddTransaction (transferP1 1700000300)
      = (NewBlockchain 1700000000 1700000000, some "cannot transfer non-existent property") :=
  unregistered_transfer_rejected _ _ rfl (by decide) (by decide) (by decide)

/-- C13: for every ledger state, a `tx` with `Property.ID == ""` gets the error
"invalid property ID" whatever `From`, `To` and the registry are, and a `tx` with
a non-empty `Property.ID` and `To == ""` gets "invalid from/to addresses" whatever
`From` and the registry are; the ledger is unchanged in both cases. -/
theorem first_two_checks (bc : Blockchain) (tx : Transaction) :
    (tx.Property.ID = "" → bc.AddTransaction tx = (bc, some "invalid property ID")) ∧
    (tx.Property.ID ≠ "" → tx.To = "" →
      bc.AddTransaction tx = (bc, some "invalid from/to addresses")) := by
  constructor
  · intro hid
    unfold Blockchain.AddTransaction
    simp [hid]
  · intro hid hto
    unfold Blockchain.AddTransaction
    simp [hid, hto]

/-- A witness of C13: on `sealedLedger`, a transaction without property id and one
without receiver. -/
theorem first_two_checks_witness :
    sealedLedger.AddTransaction { strangerTx with Property := { strangerTx.Property with ID := "" } }
      = (sealedLedger, some "invalid property ID") ∧
    sealedLedger.AddTransaction { strangerTx with To := "" }
      = (sealedLedger, some "invalid from/to addresses") :=
  ⟨(first_two_checks sealedLedger _).1 rfl,
   (first_two_checks sealedLedger { strangerTx with To := "" }).2 (by decide) rfl⟩

/-! ## Admission is all-or-nothing (C14) and reads the registry only (C19) -/

/-- C14: for every ledger state and every `tx`, if `AddTransaction(tx)` returns an
error then the ledger (`Chain`, `Registry`, `PendingTx`) is unchanged; if it
returns nil then `Chain` and `Registry` are unchanged and `PendingTx` is the old
`PendingTx` with exactly one element, `tx`, appended at the end. -/
theorem addTransaction_all_or_nothing (bc : Blockchain) (tx : Transaction) :
    ((bc.AddTransaction tx).2 ≠ none → (bc.AddTransaction tx).1 = bc) ∧
    ((bc.AddTransaction tx).2 = none →
      (bc.AddTransaction tx).1.Chain = bc.Chain ∧
      (bc.AddTransaction tx).1.Registry = bc.Registry ∧
      (bc.AddTransaction tx).1.PendingTx = bc.PendingTx ++ [tx]) := by
  rcases addTransaction_cases bc tx with ⟨e, he⟩ | ⟨hok, _⟩
  · rw [he]
    exact ⟨fun _ => rfl, fun h => absurd h (by simp)⟩
  · rw [hok]
    exact ⟨fun h => absurd rfl h, fun _ => ⟨rfl, rfl, rfl⟩⟩

/-- A witness of C14 on `sealedLedger`: the stranger's transfer is refused and the
ledger is as it was; the owner's transfer is accepted and queued. -/
theorem addTransaction_all_or_nothing_witness :
    (sealedLedger.AddTransaction strangerTx).1 = sealedLedger ∧
    (sealedLedger.AddTransaction (transferP1 1700000300)).1.Chain = sealedLedger.Chain ∧
    (sealedLedger.AddTransaction (transferP1 1700000300)).1.Registry = sealedLedger.Registry ∧
    (sealedLedger.AddTransaction (transferP1 1700000300)).1.PendingTx
      = sealedLedger.PendingTx ++ [transferP1 1700000300] :=
  ⟨(addTransaction_all_or_nothing sealedLedger strangerTx).1 (by decide),
   (addTransaction_all_or_nothing sealedLedger (transferP1 1700000300)).2 (by decide)⟩

/-- The error `AddTransaction` returns is a function of the registry and the
transaction. -/
theorem addTransaction_error_congr (bc₁ bc₂ : Blockchain) (tx : Transaction)
    (h : bc₁.Registry = bc₂.Registry) :
    (bc₁.AddTransaction tx).2 = (bc₂.AddTransaction tx).2 := by
  unfold Blockchain.AddTransaction
  rw [h]
  by_cases hid : tx.Property.ID = ""
  · simp [hid]
  · by_cases hft : tx.From = "" ∨ tx.To = ""
    · simp [hid, hft]
    · simp only [if_neg hid, if_neg hft]
      cases bc₂.Registry.lookup tx.Property.ID with
      | none => dsimp only; split <;> rfl
      | some prop => dsimp only; split <;> rfl

/-- C19: for any two ledger states with equal `Registry` (whatever their
`PendingTx` and `Chain`) and any `tx`, `AddTransaction(tx)` returns the same
outcome in both; and if `AddTransaction(tx)` is accepted in a state, submitting
the identical `tx` again before any sealing is accepted again, the two copies
queued in order after the old `PendingTx`. -/
theorem admission_reads_registry_only (bc₁ bc₂ : Blockchain) (tx : Transaction)
    (h : bc₁.Registry = bc₂.Registry) :
    (bc₁.AddTransaction tx).2 = (bc₂.AddTransaction tx).2 ∧
    ((bc₁.AddTransaction tx).2 = none →
      ((bc₁.AddTransaction tx).1.AddTransaction tx).2 = none ∧
      ((bc₁.AddTransaction tx).1.AddTransaction tx).1.PendingTx
        = bc₁.PendingTx ++ [tx, tx]) := by
  refine ⟨addTransaction_error_congr bc₁ bc₂ tx h, fun hnone => ?_⟩
  rcases addTransaction_cases bc₁ tx with ⟨e, he⟩ | ⟨hok, hid, hfrom, hto, prop, hreg, hown⟩
  · rw [he] at hnone
    exact absurd hnone (by simp)
  · rw [hok]
    rw [addTransaction_accept { bc₁ with PendingTx := bc₁.PendingTx ++ [tx] } tx prop hid hfrom
      hto hreg hown]
    exact ⟨rfl, by simp⟩

/-- A witness of C19: `sealedLedger` and `busyLedger` share the registry; the
owner's transfer of `p1` is accepted in both, and accepted twice in a row. -/
theorem admission_reads_registry_only_witness :
    (sealedLedger.AddTransaction (transferP1 1700000300)).2
      = (busyLedger.AddTransaction (transferP1 1700000300)).2 ∧
    ((sealedLedger.AddTransaction (transferP1 1700000300)).1.AddTransaction
        (transferP1 1700000300)).2 = none ∧
    ((sealedLedger.AddTransaction (transferP1 1700000300)).1.AddTransaction
        (transferP1 1700000300)).1.PendingTx
      = sealedLedger.PendingTx ++ [transferP1 1700000300, transferP1 1700000300] :=
  have h := admission_reads_registry_only sealedLedger busyLedger (transferP1 1700000300) rfl
  ⟨h.1, h.2 (by decide)⟩

/-! ## The fresh ledger (C17) and the reachable ledgers (C20) -/

/-- C17: for every pair of clock readings, `NewBlockchain()` returns a ledger whose
`Chain` is exactly one block with `Index == 0`, `PrevHash == "0"`, `Nonce == 0`,
exactly one transaction, with `From == To == "genesis"` and `Property.ID ==
"genesis_property"`, and `Hash == calculateHash` of that block; `PendingTx` and
`Registry` are empty. -/
theorem newBlockchain_genesis (t₁ t₂ : Int) :
    ∃ g tx, (NewBlockchain t₁ t₂).Chain = [g] ∧
      g.Index = 0 ∧ g.PrevHash = "0" ∧ g.Nonce = 0 ∧
      g.Transactions = [tx] ∧ tx.From = "genesis" ∧ tx.To = "genesis" ∧
      tx.Property.ID = "genesis_property" ∧
      g.Hash = g.calculateHash ∧
      (NewBlockchain t₁ t₂).PendingTx = [] ∧ (NewBlockchain t₁ t₂).Registry = [] :=
  ⟨createGenesisBlock t₁ t₂, _, rfl, rfl, rfl, rfl, rfl, rfl, rfl, rfl, rfl, rfl, rfl⟩

/-- C20: every ledger reachable from `NewBlockchain()` by `AddTransaction` and
`MinePendingTransactions` calls has an empty `PendingTx`, an empty `Registry` and
a `Chain` that is exactly the genesis block; every `AddTransaction` call on it
returns a non-nil error and every `MinePendingTransactions` call returns at once,
the ledger unchanged. -/
theorem reachable_is_fresh (bc : Blockchain) (h : Reachable bc) :
    bc.PendingTx = [] ∧ bc.Registry = [] ∧
    (∃ t₁ t₂, bc.Chain = [createGenesisBlock t₁ t₂]) ∧
    (∀ tx, (bc.AddTransaction tx).2 ≠ none) ∧
    (∀ miner difficulty now fuel,
      bc.MinePendingTransactions miner difficulty now fuel = Run.ok bc) := by
  obtain ⟨t₁, t₂, rfl⟩ := reachable_eq_new h
  exact ⟨rfl, rfl, ⟨t₁, t₂, rfl⟩, fun tx => (addTransaction_of_registry_nil _ tx rfl).2,
    fun miner difficulty now fuel => minePending_of_pending_nil _ miner difficulty now fuel rfl⟩

/-- C20 at a concrete run: after `tx1` of `main.go` has been submitted to the fresh
ledger, nothing is pending or registered, and the transfer `tx2` of `main.go` is
refused as well. -/
theorem reachable_is_fresh_witness :
    ((NewBlockchain 1700000000 1700000000).AddTransaction (mainTx1 1700000050)).1.PendingTx = [] ∧
    ((NewBlockchain 1700000000 1700000000).AddTransaction (mainTx1 1700000050)).1.Registry = [] ∧
    (((NewBlockchain 1700000000 1700000000).AddTransaction (mainTx1 1700000050)).1.AddTransaction
      { From := "owner1", To := "owner2",
        Property := { ID := "prop1", Owner := "", Description := "", Location := "", Value := 0 },
        Timestamp := 1700000400 }).2 ≠ none :=
  have h := reachable_is_fresh _
    (Reachable.add (mainTx1 1700000050) (Reachable.init 1700000000 1700000000))
  ⟨h.1, h.2.1, h.2.2.2.1 _⟩

/-! ## `ValidateChain` as a statement about adjacent blocks (C16) -/

/-- The loop of `ValidateChain` succeeds exactly when every block after `prev`
links to its predecessor and stores its own digest. -/
theorem validateFrom_iff (prev : Block) (rest : List Block) :
    validateFrom prev rest = true ↔
      ∀ i p c, (prev :: rest)[i]? = some p → (prev :: rest)[i + 1]? = some c →
        c.PrevHash = p.Hash ∧ c.Hash = c.calculateHash := by
  induction rest generalizing prev with
  | nil =>
    constructor
    · intro _ i p c _ hc
      simp at hc
    · intro _
      rfl
  | cons b rest ih =>
    constructor
    · intro hv i p c hp hc
      unfold validateFrom at hv
      split at hv
      · exact absurd hv (by simp)
      · split at hv
        · exact absurd hv (by simp)
        · rename_i h₁ h₂
          cases i with
          | zero =>
            simp only [List.getElem?_cons_zero, Option.some.injEq] at hp
            simp only [List.getElem?_cons_succ, List.getElem?_cons_zero, Option.some.injEq,
              zero_add] at hc
            subst hp hc
            exact ⟨not_not.mp h₁, not_not.mp h₂⟩
          | succ i =>
            simp only [List.getElem?_cons_succ] at hp hc
            exact (ih b).mp hv i p c hp (by simpa using hc)
    · intro H
      obtain ⟨h₁, h₂⟩ := H 0 prev b rfl (by simp)
      unfold validateFrom
      rw [if_neg (not_not.mpr h₁), if_neg (not_not.mpr h₂)]
      exact (ih b).mpr fun i p c hp hc => H (i + 1) p c (by simpa using hp) (by simpa using hc)

/-- C16: for every ledger state, `ValidateChain()` returns true if and only if for
every `i` with `1 ≤ i < len(Chain)` (that is, whenever `Chain[i]` exists),
`Chain[i].PrevHash == Chain[i-1].Hash` and `Chain[i].Hash ==
calculateHash(Chain[i])`; in particular it returns true for every chain of length
0 or 1. `ValidateChain` is a function of the ledger that returns a Boolean only,
so `Chain`, `Registry` and `PendingTx` are not changed by it. -/
theorem validateChain_iff (bc : Blockchain) :
    (bc.ValidateChain = true ↔
      ∀ i prev curr, 1 ≤ i → bc.Chain[i - 1]? = some prev → bc.Chain[i]? = some curr →
        curr.PrevHash = prev.Hash ∧ curr.Hash = curr.calculateHash) ∧
    (bc.Chain.length ≤ 1 → bc.ValidateChain = true) := by
  unfold Blockchain.ValidateChain
  cases hc : bc.Chain with
  | nil =>
    refine ⟨⟨fun _ i prev curr _ _ h => ?_, fun _ => rfl⟩, fun _ => rfl⟩
    simp at h
  | cons first rest =>
    refine ⟨?_, fun hlen => ?_⟩
    · rw [validateFrom_iff]
      constructor
      · intro H i prev curr hi hp hcu
        obtain ⟨j, rfl⟩ : ∃ j, i = j + 1 := ⟨i - 1, by omega⟩
        exact H j prev curr (by simpa using hp) hcu
      · intro H j p c hp hcu
        exact H (j + 1) p c (by omega) (by simpa using hp) hcu
    · cases rest with
      | nil => rfl
      | cons _ _ => simp at hlen

/-- A witness of C16 on `sealedLedger`: the chain validates, and block 1 links to
block 0 and stores its own digest. -/
theorem validateChain_iff_witness :
    sealedLedger.ValidateChain = true ∧
    (∀ prev curr, sealedLedger.Chain[0]? = some prev → sealedLedger.Chain[1]? = some curr →
      curr.PrevHash = prev.Hash ∧ curr.Hash = curr.calculateHash) ∧
    (NewBlockchain 1700000000 1700000000).ValidateChain = true :=
  ⟨by decide!,
   fun prev curr hp hcu =>
     (validateChain_iff sealedLedger).1.mp (by decide!) 1 prev curr (le_refl 1) hp hcu,
   (validateChain_iff (NewBlockchain 1700000000 1700000000)).2 (le_refl 1)⟩

/-! ## What a returning `MinePendingTransactions` does (C15, C18) -/

/-- Reading a key just written. -/
theorem lookup_mapStore_self (m : List (String × Property)) (k : String) (v : Property) :
    (mapStore m k v).lookup k = some v := by
  simp [mapStore, List.lookup_cons]

/-- Dropping the entries of a key leaves the other keys as they were. -/
theorem lookup_filter_of_ne (m : List (String × Property)) (k k₁ : String) (h : k₁ ≠ k) :
    (m.filter fun e => e.1 != k).lookup k₁ = m.lookup k₁ := by
  induction m with
  | nil => rfl
  | cons e m ih =>
    obtain ⟨a, b⟩ := e
    by_cases ha : a = k
    · subst ha
      have hk : (k₁ == a) = false := by simpa using h
      simp only [List.filter_cons, bne_self_eq_false, Bool.false_eq_true, if_false,
        List.lookup_cons, hk]
      exact ih
    · have hne : (a != k) = true := by simpa using ha
      simp only [List.filter_cons, hne, if_true, List.lookup_cons]
      rw [ih]

/-- Writing a key leaves the other keys as they were. -/
theorem lookup_mapStore_of_ne (m : List (String × Property)) (k k₁ : String) (v : Property)
    (h : k₁ ≠ k) : (mapStore m k v).lookup k₁ = m.lookup k₁ := by
  unfold mapStore
  rw [List.lookup_cons]
  have hb : (k₁ == k) = false := by simpa using h
  rw [hb]
  exact lookup_filter_of_ne m k k₁ h

/-- The registry loop leaves the ids that do not occur in the pool as they were. -/
theorem lookup_applyTransactions_of_absent (txs : List Transaction) (id : String) :
    ∀ reg : List (String × Property), (∀ t ∈ txs, t.Property.ID ≠ id) →
      (applyTransactions reg txs).lookup id = reg.lookup id := by
  induction txs with
  | nil => intro reg _; rfl
  | cons t txs ih =>
    intro reg h
    have h₁ : id ≠ t.Property.ID := fun e => h t (List.mem_cons_self _ _) e.symm
    show (applyTransactions (mapStore reg t.Property.ID { t.Property with Owner := t.To })
      txs).lookup id = reg.lookup id
    rw [ih _ (fun u hu => h u (List.mem_cons_of_mem _ hu)), lookup_mapStore_of_ne _ _ _ _ h₁]

/-- The registry loop over a pool split at a transaction. -/
theorem applyTransactions_append (reg : List (String × Property)) (pre post : List Transaction) :
    applyTransactions reg (pre ++ post) = applyTransactions (applyTransactions reg pre) post := by
  unfold applyTransactions
  rw [List.foldl_append]

/-- At difficulty 0 a sealing call on a non-empty pool returns with the block
`newBlock` appended as built. -/
theorem minePending_at_zero (bc : Blockchain) (lastBlock : Block) (miner : String) (now : Int)
    (fuel : Nat) (hl : bc.Chain.getLast? = some lastBlock) (hp : bc.PendingTx ≠ []) :
    bc.MinePendingTransactions miner 0 now fuel
      = Run.ok { Chain := bc.Chain ++ [newBlock lastBlock bc.PendingTx now],
                 PendingTx := [],
                 Registry := applyTransactions bc.Registry bc.PendingTx } := by
  have hlen : bc.PendingTx.length ≠ 0 := fun h => hp (List.length_eq_zero.mp h)
  unfold Blockchain.MinePendingTransactions
  simp [hlen, hl, mineBlock_zero]

/-- A sealing call on a non-empty pool that returns has mined the block `newBlock`
on the last block of the chain, appended the result, applied the pool to the
registry and cleared the pool. -/
theorem minePending_ok (bc bc₁ : Blockchain) (miner : String) (d : Nat) (now : Int)
    (fuel : Nat) (hp : bc.PendingTx ≠ [])
    (hm : bc.MinePendingTransactions miner d now fuel = Run.ok bc₁) :
    ∃ lastBlock mined, bc.Chain.getLast? = some lastBlock ∧
      (newBlock lastBlock bc.PendingTx now).MineBlock d fuel = Run.ok mined ∧
      bc₁ = { Chain := bc.Chain ++ [mined], PendingTx := [],
              Registry := applyTransactions bc.Registry bc.PendingTx } := by
  have hlen : bc.PendingTx.length ≠ 0 := fun h => hp (List.length_eq_zero.mp h)
  unfold Blockchain.MinePendingTransactions at hm
  rw [if_neg hlen] at hm
  cases hl : bc.Chain.getLast? with
  | none => simp [hl] at hm
  | some lastBlock =>
    cases hb : (newBlock lastBlock bc.PendingTx now).MineBlock d fuel with
    | panic msg => simp [hl, hb] at hm
    | outOfFuel => simp [hl, hb] at hm
    | ok mined =>
      simp only [hl, hb] at hm
      exact ⟨lastBlock, mined, rfl, hb, (Run.ok.inj hm).symm⟩

/-- C15: for every ledger state with a non-empty `PendingTx` and every difficulty
for which `MinePendingTransactions` returns, the resulting `Registry` is the old
one updated, for each pooled transaction in admission order, by
`registry[tx.Property.ID] := tx.Property` with `Owner` replaced by `tx.To`; hence
the last pooled transaction for an id determines its entry, and the entries of
ids that do not occur in the pool are unchanged. -/
theorem seal_updates_registry (bc bc₁ : Blockchain) (miner : String) (d : Nat) (now : Int)
    (fuel : Nat) (hp : bc.PendingTx ≠ [])
    (hm : bc.MinePendingTransactions miner d now fuel = Run.ok bc₁) :
    bc₁.Registry
      = bc.PendingTx.foldl
          (fun reg tx => mapStore reg tx.Property.ID { tx.Property with Owner := tx.To })
          bc.Registry ∧
    (∀ pre tx post, bc.PendingTx = pre ++ tx :: post →
      (∀ t ∈ post, t.Property.ID ≠ tx.Property.ID) →
      bc₁.Registry.lookup tx.Property.ID = some { tx.Property with Owner := tx.To }) ∧
    (∀ id, (∀ t ∈ bc.PendingTx, t.Property.ID ≠ id) →
      bc₁.Registry.lookup id = bc.Registry.lookup id) := by
  obtain ⟨lastBlock, mined, _, _, rfl⟩ := minePending_ok bc bc₁ miner d now fuel hp hm
  refine ⟨rfl, fun pre tx post hsplit hlast => ?_, fun id habs => ?_⟩
  · show (applyTransactions bc.Registry bc.PendingTx).lookup tx.Property.ID = _
    rw [hsplit, applyTransactions_append]
    show (applyTransactions
        (mapStore (applyTransactions bc.Registry pre) tx.Property.ID
          { tx.Property with Owner := tx.To }) post).lookup tx.Property.ID = _
    rw [lookup_applyTransactions_of_absent post _ _ hlast, lookup_mapStore_self]
  · exact lookup_applyTransactions_of_absent bc.PendingTx id bc.Registry habs

/-- A witness of C15 on `doublePoolLedger` at difficulty 0: after sealing, `p1` is
registered to ownerB, the receiver of the last pooled transaction for `p1`, and
`prop1`, which the pool does not mention, is as absent as before. -/
theorem seal_updates_registry_witness :
    (applyTransactions doublePoolLedger.Registry doublePoolLedger.PendingTx).lookup "p1"
      = some { ID := "p1", Owner := "ownerB", Description := "", Location := "", Value := 0 } ∧
    (applyTransactions doublePoolLedger.Registry doublePoolLedger.PendingTx).lookup "prop1"
      = doublePoolLedger.Registry.lookup "prop1" :=
  have h := seal_updates_registry doublePoolLedger
    { Chain := doublePoolLedger.Chain
        ++ [newBlock (createGenesisBlock 1700000000 1700000000) doublePoolLedger.PendingTx
              1700000500],
      PendingTx := [],
      Registry := applyTransactions doublePoolLedger.Registry doublePoolLedger.PendingTx }
    "miner1" 0 1700000500 0 (by simp [doublePoolLedger])
    (minePending_at_zero doublePoolLedger _ "miner1" 1700000500 0 rfl
      (by simp [doublePoolLedger]))
  ⟨h.2.1 [{ registerP1 1700000100 with From := "creator" }] (transferP1 1700000300) [] rfl
      (by simp),
   h.2.2 "prop1" (by decide)⟩

/-- C18: for every ledger state with a non-empty `PendingTx` and every difficulty
for which `MinePendingTransactions` returns (the `Chain` is then non-empty), the
new `Chain` is the old `Chain`, every block unchanged, followed by exactly one
block, whose `Index` is the old last block's `Index + 1` (the 64-bit `int` sum,
equal to the integer sum unless the old index is the largest `int`), whose
`PrevHash` is the old last block's `Hash` and whose `Transactions` are the old
`PendingTx` in the same order. -/
theorem seal_appends_one_block (bc bc₁ : Blockchain) (miner : String) (d : Nat) (now : Int)
    (fuel : Nat) (hp : bc.PendingTx ≠ [])
    (hm : bc.MinePendingTransactions miner d now fuel = Run.ok bc₁) :
    ∃ lastBlock mined, bc.Chain ≠ [] ∧ bc.Chain.getLast? = some lastBlock ∧
      bc₁.Chain = bc.Chain ++ [mined] ∧
      mined.Index = wrap64 (lastBlock.Index + 1) ∧
      (-9223372036854775808 ≤ lastBlock.Index → lastBlock.Index < 9223372036854775807 →
        mined.Index = lastBlock.Index + 1) ∧
      mined.PrevHash = lastBlock.Hash ∧
      mined.Transactions = bc.PendingTx := by
  obtain ⟨lastBlock, mined, hl, hb, rfl⟩ := minePending_ok bc bc₁ miner d now fuel hp hm
  obtain ⟨h₁, _, h₃, h₄⟩ := mineBlock_frame _ _ d fuel hb
  have hne : bc.Chain ≠ [] := by
    intro h
    rw [h] at hl
    simp at hl
  refine ⟨lastBlock, mined, hne, hl, rfl, h₁, fun hlo hhi => ?_, h₃, h₄⟩
  rw [h₁]
  show wrap64 (lastBlock.Index + 1) = lastBlock.Index + 1
  unfold wrap64
  omega

/-- A witness of C18 on `pendingLedger` at difficulty 0: the sealed chain is the
genesis block followed by one block with index 1, the genesis hash as `PrevHash`
and the pool as `Transactions`. -/
theorem seal_appends_one_block_witness :
    ∃ lastBlock mined, pendingLedger.Chain ≠ [] ∧
      pendingLedger.Chain.getLast? = some lastBlock ∧
      pendingLedger.Chain ++ [newBlock (createGenesisBlock 1700000000 1700000000)
          pendingLedger.PendingTx 1700000200]
        = pendingLedger.Chain ++ [mined] ∧
      mined.Index = wrap64 (lastBlock.Index + 1) ∧
      (-9223372036854775808 ≤ lastBlock.Index → lastBlock.Index < 9223372036854775807 →
        mined.Index = lastBlock.Index + 1) ∧
      mined.PrevHash = lastBlock.Hash ∧
      mined.Transactions = pendingLedger.PendingTx :=
  seal_appends_one_block pendingLedger
    { Chain := pendingLedger.Chain
        ++ [newBlock (createGenesisBlock 1700000000 1700000000) pendingLedger.PendingTx
              1700000200],
      PendingTx := [],
      Registry := applyTransactions pendingLedger.Registry pendingLedger.PendingTx }
    "miner1" 0 1700000200 0 (by simp [pendingLedger])
    (minePending_at_zero pendingLedger _ "miner1" 1700000200 0 rfl (by simp [pendingLedger]))
